import Mathlib

/-!
Shallow embedding of the Video-game-scoring-system repository
(`player_class.py`, `score_manager.py`).

Strings are modelled as lists of characters (`Str`); Python `int` is
modelled as `Int`.  Python's `int(str)` conversion is modelled for ASCII
input: surrounding whitespace is stripped, an optional sign is read, then
decimal digits with single underscores allowed between digits.  The file
written by `save_leaderboard` and read by `load_leaderboard` is modelled
as a list of lines (each line a `Str`, without its trailing newline).
-/

/-- Strings are modelled as lists of characters. -/
abbrev Str := List Char

/-- The whitespace characters stripped by Python `str.strip()` (ASCII range). -/
def isPySpace (c : Char) : Bool :=
  c = ' ' || c = '\t' || c = '\n' || c = '\x0d' || c = '\x0b' || c = '\x0c'

/-- Model of Python `str.strip()`: drop whitespace from both ends. -/
def pyStrip (l : Str) : Str :=
  ((l.dropWhile isPySpace).reverse.dropWhile isPySpace).reverse

/-- Numeric value of a decimal digit character. -/
def digitVal (c : Char) : Nat := c.toNat - 48

/-- Digit-tail loop of Python `int()` parsing: consumes decimal digits,
allowing a single underscore between two digits. -/
def pyNatLoop : Str → Nat → Option Nat
  | [], acc => some acc
  | c :: rest, acc =>
    if c.isDigit then pyNatLoop rest (acc * 10 + digitVal c)
    else if c = '_' then
      match rest with
      | d :: rest2 =>
        if d.isDigit then pyNatLoop rest2 (acc * 10 + digitVal d) else none
      | [] => none
    else none

/-- Unsigned part of Python `int()` parsing: at least one leading digit. -/
def pyNat (l : Str) : Option Nat :=
  match l with
  | [] => none
  | c :: _ => if c.isDigit then pyNatLoop l 0 else none

/-- Signed part of Python `int()` parsing (input already stripped). -/
def pyIntCore (l : Str) : Option Int :=
  match l with
  | [] => none
  | c :: rest =>
    if c = '+' then (pyNat rest).map Int.ofNat
    else if c = '-' then (pyNat rest).map (fun n => -(n : Int))
    else (pyNat (c :: rest)).map Int.ofNat

/-- Model of Python `int(s)` on a string: strip whitespace, read an
optional sign, then decimal digits; `none` models `ValueError`. -/
def pyInt (s : Str) : Option Int :=
  pyIntCore (pyStrip s)

/-- Decimal digits of `n`, most significant first; `fuel` bounds the
recursion (structural, so that concrete values reduce by `decide`). -/
def natToDigitsAux : Nat → Nat → Str
  | 0, _ => []
  | fuel + 1, n =>
    if n < 10 then [Char.ofNat (48 + n)]
    else natToDigitsAux fuel (n / 10) ++ [Char.ofNat (48 + n % 10)]

/-- Model of Python `str(n)` for a natural number. -/
def natToDigits (n : Nat) : Str :=
  natToDigitsAux (n + 1) n

/-- Model of Python `str(i)` for an integer: a minus sign for negative
values, then the decimal digits of the absolute value. -/
def intToStr (i : Int) : Str :=
  if i < 0 then '-' :: natToDigits i.natAbs else natToDigits i.toNat

theorem digitChar_isDigit {m : Nat} (h : m < 10) :
    (Char.ofNat (48 + m)).isDigit = true := by
  interval_cases m <;> decide

theorem digitVal_digitChar {m : Nat} (h : m < 10) :
    digitVal (Char.ofNat (48 + m)) = m := by
  interval_cases m <;> decide

theorem natToDigitsAux_ne_nil {fuel n : Nat} (h0 : 0 < fuel) :
    natToDigitsAux fuel n ≠ [] := by
  cases fuel with
  | zero => omega
  | succ fuel =>
    rw [natToDigitsAux]
    split
    · simp
    · simp

theorem natToDigitsAux_isDigit {fuel n : Nat} (h : n < 10 ^ fuel) :
    ∀ c ∈ natToDigitsAux fuel n, c.isDigit = true := by
  induction fuel generalizing n with
  | zero => rw [natToDigitsAux]; simp
  | succ fuel ih =>
    rw [natToDigitsAux]
    split
    · intro c hc
      rw [List.mem_singleton] at hc
      subst hc
      exact digitChar_isDigit (by omega)
    · intro c hc
      rw [List.mem_append] at hc
      rcases hc with hc | hc
      · exact ih (by rw [pow_succ] at h; omega) c hc
      · rw [List.mem_singleton] at hc
        subst hc
        exact digitChar_isDigit (Nat.mod_lt _ (by omega))

theorem natToDigitsAux_foldl {fuel : Nat} :
    ∀ {n : Nat}, n < 10 ^ fuel → 0 < fuel → ∀ acc : Nat,
      (natToDigitsAux fuel n).foldl (fun a c => a * 10 + digitVal c) acc =
        acc * 10 ^ (natToDigitsAux fuel n).length + n := by
  induction fuel with
  | zero => intro n _ h0; omega
  | succ fuel ih =>
    intro n h _ acc
    rw [natToDigitsAux]
    split
    · rw [List.foldl_cons, List.foldl_nil, List.length_singleton,
        digitVal_digitChar (by omega)]
      ring
    · rename_i hn10
      have hdiv : n / 10 < 10 ^ fuel := by
        rw [pow_succ] at h
        omega
      have hf0 : 0 < fuel := by
        by_contra hcon
        have : fuel = 0 := by omega
        subst this
        simp at hdiv
        omega
      rw [List.foldl_append, List.foldl_cons, List.foldl_nil,
        List.length_append, List.length_singleton, ih hdiv hf0 acc,
        digitVal_digitChar (Nat.mod_lt _ (by omega)), pow_succ]
      have := Nat.div_add_mod n 10
      ring_nf
      omega

theorem pyNatLoop_cons_digit (c : Char) (rest : Str) (acc : Nat)
    (hc : c.isDigit = true) :
    pyNatLoop (c :: rest) acc = pyNatLoop rest (acc * 10 + digitVal c) := by
  rw [pyNatLoop.eq_def]
  simp [hc]

theorem pyNatLoop_all_digits :
    ∀ (l : Str) (acc : Nat), (∀ c ∈ l, c.isDigit = true) →
      pyNatLoop l acc = some (l.foldl (fun a c => a * 10 + digitVal c) acc) := by
  intro l
  induction l with
  | nil => intro acc _; rfl
  | cons c rest ih =>
    intro acc h
    have hc : c.isDigit = true := h c (List.mem_cons_self c rest)
    rw [pyNatLoop_cons_digit c rest acc hc, List.foldl_cons]
    exact ih _ (fun d hd => h d (List.mem_cons_of_mem c hd))

theorem pyNat_natToDigits (n : Nat) : pyNat (natToDigits n) = some n := by
  have hfuel : n < 10 ^ (n + 1) :=
    lt_of_lt_of_le (Nat.lt_two_pow n)
      (le_trans (Nat.pow_le_pow_left (by omega) n)
        (Nat.pow_le_pow_right (by omega) (Nat.le_succ n)))
  have hne : natToDigits n ≠ [] := natToDigitsAux_ne_nil (Nat.succ_pos n)
  have hdig : ∀ c ∈ natToDigits n, c.isDigit = true := natToDigitsAux_isDigit hfuel
  obtain ⟨c, rest, hl⟩ := List.exists_cons_of_ne_nil hne
  have hc : c.isDigit = true := hdig c (by rw [hl]; exact List.mem_cons_self c rest)
  have hloop := pyNatLoop_all_digits (natToDigits n) 0 hdig
  rw [natToDigits] at hloop
  rw [natToDigitsAux_foldl hfuel (Nat.succ_pos n) 0] at hloop
  simp only [pyNat, hl]
  rw [if_pos hc, ← hl]
  rw [natToDigits] at hl ⊢
  rw [hloop]
  simp

theorem intToStr_isDigit_or_neg (i : Int) :
    ∀ c ∈ intToStr i, c.isDigit = true ∨ c = '-' := by
  intro c hc
  rw [intToStr] at hc
  split at hc
  · rcases List.mem_cons.mp hc with h | h
    · exact Or.inr h
    · exact Or.inl (natToDigitsAux_isDigit
        (lt_of_lt_of_le (Nat.lt_two_pow _)
          (le_trans (Nat.pow_le_pow_left (by omega) _)
            (Nat.pow_le_pow_right (by omega) (Nat.le_succ _)))) c h)
  · exact Or.inl (natToDigitsAux_isDigit
      (lt_of_lt_of_le (Nat.lt_two_pow _)
        (le_trans (Nat.pow_le_pow_left (by omega) _)
          (Nat.pow_le_pow_right (by omega) (Nat.le_succ _)))) c hc)

theorem isDigit_not_pySpace {c : Char} (h : c.isDigit = true) :
    isPySpace c = false := by
  rw [isPySpace]
  by_contra hcon
  simp only [Bool.not_eq_false, Bool.or_eq_true, decide_eq_true_eq] at hcon
  rcases hcon with ((((h1 | h1) | h1) | h1) | h1) | h1 <;> subst h1 <;> simp at h

theorem neg_not_pySpace : isPySpace '-' = false := by decide

theorem dropWhile_eq_self_of_head {l : Str}
    (h : ∀ c, l.head? = some c → isPySpace c = false) :
    l.dropWhile isPySpace = l := by
  cases l with
  | nil => rfl
  | cons c rest =>
    rw [List.dropWhile_cons, h c rfl]
    simp

/-- `str.strip()` is the identity when neither end of the string is
whitespace. -/
theorem pyStrip_eq_self {l : Str}
    (h1 : ∀ c, l.head? = some c → isPySpace c = false)
    (h2 : ∀ c, l.getLast? = some c → isPySpace c = false) :
    pyStrip l = l := by
  rw [pyStrip, dropWhile_eq_self_of_head h1, dropWhile_eq_self_of_head
    (fun c hc => h2 c (by rw [← List.head?_reverse]; exact hc)),
    List.reverse_reverse]

theorem getLast?_mem_self : ∀ {l : Str} {c : Char}, l.getLast? = some c → c ∈ l := by
  intro l c h
  rcases List.mem_getLast?_eq_getLast (Option.mem_def.mpr h) with ⟨hne, hc⟩
  rw [hc]
  exact List.getLast_mem hne

theorem pyStrip_intToStr (i : Int) : pyStrip (intToStr i) = intToStr i := by
  apply pyStrip_eq_self
  · intro c hc
    have hm : c ∈ intToStr i := List.mem_of_mem_head? (Option.mem_def.mpr hc)
    rcases intToStr_isDigit_or_neg i c hm with h | h
    · exact isDigit_not_pySpace h
    · rw [h]; decide
  · intro c hc
    rcases intToStr_isDigit_or_neg i c (getLast?_mem_self hc) with h | h
    · exact isDigit_not_pySpace h
    · rw [h]; decide

theorem isDigit_ne_plus {c : Char} (h : c.isDigit = true) : c ≠ '+' := by
  intro hc; subst hc; simp at h

theorem isDigit_ne_minus {c : Char} (h : c.isDigit = true) : c ≠ '-' := by
  intro hc; subst hc; simp at h

/-- Parsing inverts printing: `pyInt (intToStr i) = some i`, the model-level
statement that `int(str(i)) == i` in Python. -/
theorem pyInt_intToStr (i : Int) : pyInt (intToStr i) = some i := by
  rw [pyInt, pyStrip_intToStr]
  by_cases hneg : i < 0
  · rw [intToStr, if_pos hneg, pyIntCore]
    have hmap : (pyNat (natToDigits i.natAbs)).map (fun n => -(n : Int)) =
        some (-(i.natAbs : Int)) := by
      rw [pyNat_natToDigits]
      rfl
    rw [if_neg (show ¬ ('-' = '+') by decide), if_pos rfl, hmap]
    congr 1
    omega
  · rw [intToStr, if_neg hneg]
    have hfuel : i.toNat < 10 ^ (i.toNat + 1) :=
      lt_of_lt_of_le (Nat.lt_two_pow _)
        (le_trans (Nat.pow_le_pow_left (by omega) _)
          (Nat.pow_le_pow_right (by omega) (Nat.le_succ _)))
    have hdig : ∀ c ∈ natToDigits i.toNat, c.isDigit = true :=
      natToDigitsAux_isDigit hfuel
    have hne : natToDigits i.toNat ≠ [] := natToDigitsAux_ne_nil (Nat.succ_pos _)
    obtain ⟨c, rest, hl⟩ := List.exists_cons_of_ne_nil hne
    have hc : c.isDigit = true :=
      hdig c (by rw [hl]; exact List.mem_cons_self c rest)
    rw [hl, pyIntCore, if_neg (isDigit_ne_plus hc), if_neg (isDigit_ne_minus hc),
      ← hl, pyNat_natToDigits]
    show some ((i.toNat : Int)) = some i
    rw [Int.toNat_of_nonneg (by omega)]


/-! ## Data model: `player_class.py` -/

/-- Embedding of the `Player` class of `player_class.py`: one field per
instance attribute.  Python integers are modelled as `Int`. -/
structure Player where
  name : Str
  score : Int
  games_played : Int
  best_score : Int
  score_history : List Int
  current_streak : Int
deriving DecidableEq, Repr

/-- Embedding of `Player.__init__(name, score)`: `games_played = 1`,
`best_score = score`, `score_history = [score]`, `current_streak = 0`. -/
def Player.create (name : Str) (score : Int) : Player :=
  { name := name
    score := score
    games_played := 1
    best_score := score
    score_history := [score]
    current_streak := 0 }

/-- Embedding of `Player.update_score(new_score)`: append to the history,
bump `games_played`, and update `best_score` / `current_streak` under the
strict `new_score > self.best_score` test. -/
def Player.update_score (p : Player) (new_score : Int) : Player :=
  { p with
    score := new_score
    games_played := p.games_played + 1
    score_history := p.score_history ++ [new_score]
    best_score := if p.best_score < new_score then new_score else p.best_score
    current_streak := if p.best_score < new_score then p.current_streak + 1 else 0 }

/-! ## `score_manager.py`: ScoreValidator -/

/-- Embedding of `ScoreValidator.validate_score`: `int(score)` must succeed
and the value must lie in `[0, 10000]`.  The printed diagnostics are side
effects on stdout only and are not modelled; the function touches no
leaderboard or player state. -/
def ScoreValidator.validate_score (score : Str) : Bool :=
  match pyInt score with
  | none => false
  | some v => if v < 0 then false else if 10000 < v then false else true

/-- Embedding of `ScoreValidator.validate_name`: fails when the string is
empty or all-whitespace (`not name or len(name.strip()) == 0`), or when its
raw length exceeds 20 characters. -/
def ScoreValidator.validate_name (name : Str) : Bool :=
  if name = [] ∨ (pyStrip name).length = 0 then false
  else if 20 < name.length then false
  else true

/-! ## `score_manager.py`: Leaderboard -/

/-- Embedding of the `Leaderboard`'s `self.players` dictionary: a list of
players in dictionary insertion order (Python dicts preserve insertion
order, and `players[name] = ...` on an existing key keeps its position,
which the update model below mirrors). -/
structure Leaderboard where
  players : List Player
deriving DecidableEq, Repr

/-- The comparison used by `sorted(..., key=lambda player: player.score,
reverse=True)`: `p` may come before `q` when `q.score ≤ p.score`.  Python's
`sorted` is stable, and `List.insertionSort` with this relation is the
stable descending sort. -/
def scoreGE (p q : Player) : Prop := q.score ≤ p.score

instance : DecidableRel scoreGE := fun p q => inferInstanceAs (Decidable (q.score ≤ p.score))

/-- The full collection sorted by `current_score` descending (stably). -/
def sortByScoreDesc (l : List Player) : List Player :=
  List.insertionSort scoreGE l

/-- Embedding of `Leaderboard.get_top_players(n)`: the stable descending
sort of `self.players.values()`, truncated to the first `n`. -/
def Leaderboard.get_top_players (lb : Leaderboard) (n : Nat) : List Player :=
  (sortByScoreDesc lb.players).take n

/-- Dictionary write `self.players[name] = p` (or the in-place
`update_score` call): replace the entry with that name keeping its
position, else append at the end. -/
def upsert (players : List Player) (p : Player) : List Player :=
  if players.any (fun q => q.name = p.name) then
    players.map (fun q => if q.name = p.name then p else q)
  else players ++ [p]

/-- Embedding of `Leaderboard.add_score(name, score)`: validate the name,
then the score; on failure return `False` with the state unchanged; on
success update the existing player or create a new one and return `True`.
(The `save_leaderboard()` call performed on success writes the file and
does not change `self.players`.) -/
def Leaderboard.add_score (lb : Leaderboard) (name score : Str) : Bool × Leaderboard :=
  if ¬ ScoreValidator.validate_name name then (false, lb)
  else if ¬ ScoreValidator.validate_score score then (false, lb)
  else
    match pyInt score with
    | none => (false, lb)
    | some v =>
      if lb.players.any (fun q => q.name = name) then
        (true, ⟨lb.players.map (fun q => if q.name = name then q.update_score v else q)⟩)
      else
        (true, ⟨lb.players ++ [Player.create name v]⟩)

/-- Model of Python `sep.join(strs)` for a one-character separator. -/
def joinSep (sep : Char) : List Str → Str
  | [] => []
  | [x] => x
  | x :: y :: rest => x ++ sep :: joinSep sep (y :: rest)

/-- Model of Python `s.split(sep)` for a one-character separator: always
returns at least one (possibly empty) piece. -/
def splitOnSep (sep : Char) : Str → List Str
  | [] => [[]]
  | c :: rest =>
    if c = sep then [] :: splitOnSep sep rest
    else
      match splitOnSep sep rest with
      | [] => [[c]]
      | piece :: pieces => (c :: piece) :: pieces

/-- The data line `save_leaderboard` writes for one player:
`name|score|games_played|best_score|history_csv`. -/
def serializePlayer (p : Player) : Str :=
  p.name ++ '|' :: (intToStr p.score ++ '|' :: (intToStr p.games_played ++
    '|' :: (intToStr p.best_score ++
      '|' :: joinSep ',' (p.score_history.map intToStr))))

/-- Embedding of `Leaderboard.save_leaderboard`: the file is opened in
mode `w` (truncating), so its full content after the call is the two
header lines followed by one line per player of `get_top_players(10)`.
The method reads but never assigns `self.players`, so the returned
leaderboard is the input one.  `h1` stands for the timestamp header line,
`h2` for the separator header line. -/
def Leaderboard.save_leaderboard (lb : Leaderboard) (h1 h2 : Str) :
    List Str × Leaderboard :=
  (h1 :: h2 :: (lb.get_top_players 10).map serializePlayer, lb)

/-- Assembly of one reconstructed player from the parsed fields: the
record is `Player(name, score)` with `games_played`, `best_score` and
`score_history` overwritten, hence `current_streak = 0`; any failed field
is a parse failure. -/
def parseFields (name : Str) (o1 o2 o3 : Option Int) (oh : Option (List Int)) :
    Option Player :=
  match o1, o2, o3, oh with
  | some score, some gp, some bs, some hist =>
    some { name := name
           score := score
           games_played := gp
           best_score := bs
           score_history := hist
           current_streak := 0 }
  | _, _, _, _ => none

/-- Parsing of one data line of the file, mirroring the loop body of
`load_leaderboard`: strip, split on `|`, read fields 1-3 with `int()`, and
field 4 as a comma-separated list of `int()`s; a missing field
(`IndexError`) or failed conversion (`ValueError`) raises, giving `none`. -/
def parseLine (line : Str) : Option Player :=
  match splitOnSep '|' (pyStrip line) with
  | name :: f1 :: f2 :: f3 :: f4 :: _ =>
    parseFields name (pyInt f1) (pyInt f2) (pyInt f3) ((splitOnSep ',' f4).mapM pyInt)
  | _ => none

/-- The `for line in lines` loop of `load_leaderboard`: blank lines are
skipped; a line that fails to parse raises, which the surrounding
`try/except` turns into an abort that keeps every player stored so far
(`self.players` is not cleared) and processes no further line.  The `Bool`
is `true` when no error occurred. -/
def loadFold : List Player → List Str → List Player × Bool
  | ps, [] => (ps, true)
  | ps, line :: rest =>
    if pyStrip line = [] then loadFold ps rest
    else
      match parseLine line with
      | none => (ps, false)
      | some p => loadFold (upsert ps p) rest

/-- Embedding of `Leaderboard.load_leaderboard` on a file whose content is
`lines` (the constructor calls it with `self.players` empty):
`f.readlines()[2:]` skips the two header lines, then the loop above runs.
The `Bool` is `true` when the load completed without error. -/
def load_leaderboard (lines : List Str) : Leaderboard × Bool :=
  match loadFold [] (lines.drop 2) with
  | (ps, ok) => (⟨ps⟩, ok)

/-! ## Invariants of a player record -/

/-- The record invariants of the spec: non-empty history whose length is
`games_played`, `best_score` the maximum of the history, and
`current_score` its last element. -/
def PlayerInv (p : Player) : Prop :=
  p.score_history ≠ [] ∧
  (p.score_history.length : Int) = p.games_played ∧
  p.best_score ∈ p.score_history ∧
  (∀ x ∈ p.score_history, x ≤ p.best_score) ∧
  p.score_history.getLast? = some p.score

instance (p : Player) : Decidable (PlayerInv p) := by
  unfold PlayerInv
  infer_instance

theorem create_playerInv (name : Str) (s : Int) : PlayerInv (Player.create name s) := by
  refine ⟨by simp [Player.create], ?_, ?_, ?_, ?_⟩ <;> simp [Player.create]

theorem update_playerInv (p : Player) (ns : Int) (h : PlayerInv p) :
    PlayerInv (p.update_score ns) := by
  obtain ⟨h1, h2, h3, h4, h5⟩ := h
  refine ⟨?_, ?_, ?_, ?_, ?_⟩
  · simp [Player.update_score]
  · simp only [Player.update_score, List.length_append, List.length_singleton]
    push_cast
    omega
  · simp only [Player.update_score]
    by_cases hlt : p.best_score < ns
    · rw [if_pos hlt]
      exact List.mem_append_right _ (List.mem_singleton_self ns)
    · rw [if_neg hlt]
      exact List.mem_append_left _ h3
  · intro x hx
    simp only [Player.update_score] at hx ⊢
    rcases List.mem_append.mp hx with hx | hx
    · by_cases hlt : p.best_score < ns
      · rw [if_pos hlt]
        exact le_of_lt (lt_of_le_of_lt (h4 x hx) hlt)
      · rw [if_neg hlt]
        exact h4 x hx
    · rw [List.mem_singleton] at hx
      rw [hx]
      by_cases hlt : p.best_score < ns
      · rw [if_pos hlt]
      · rw [if_neg hlt]
        omega
  · simp only [Player.update_score]
    exact List.getLast?_concat _

theorem foldl_update_playerInv (updates : List Int) :
    ∀ p : Player, PlayerInv p → PlayerInv (updates.foldl Player.update_score p) := by
  induction updates with
  | nil => intro p h; exact h
  | cons u rest ih =>
    intro p h
    rw [List.foldl_cons]
    exact ih _ (update_playerInv p u h)

/-- C3: `update_score` increments `current_streak` and sets `best_score`
exactly when the new score strictly beats the previous `best_score`, and
resets the streak to 0 otherwise; in particular an increase over the
previous `current_score` that does not beat `best_score` resets the
streak. -/
theorem C3_update_score_streak_rule (p : Player) (ns : Int) :
    (p.best_score < ns →
      (p.update_score ns).current_streak = p.current_streak + 1 ∧
      (p.update_score ns).best_score = ns) ∧
    (ns ≤ p.best_score → (p.update_score ns).current_streak = 0) ∧
    (p.score < ns → ns ≤ p.best_score → (p.update_score ns).current_streak = 0) := by
  refine ⟨fun h => ?_, fun h => ?_, fun _ h => ?_⟩
  · constructor <;> simp [Player.update_score, if_pos h]
  · simp [Player.update_score, if_neg (not_lt.mpr h)]
  · simp [Player.update_score, if_neg (not_lt.mpr h)]

theorem C3_update_score_streak_rule_witness :
    ((Player.create ['A'] 5).best_score < 7 ∧
      ((Player.create ['A'] 5).update_score 7).current_streak =
        (Player.create ['A'] 5).current_streak + 1 ∧
      ((Player.create ['A'] 5).update_score 7).best_score = 7) ∧
    (3 ≤ (Player.create ['A'] 5).best_score ∧
      ((Player.create ['A'] 5).update_score 3).current_streak = 0) ∧
    (((Player.create ['A'] 5).update_score 3).update_score 4).current_streak = 0 :=
  ⟨⟨by decide, (C3_update_score_streak_rule (Player.create ['A'] 5) 7).1 (by decide)⟩,
   ⟨by decide, (C3_update_score_streak_rule (Player.create ['A'] 5) 3).2.1 (by decide)⟩,
   (C3_update_score_streak_rule ((Player.create ['A'] 5).update_score 3) 4).2.2
     (by decide) (by decide)⟩

/-- C4: every player reachable by `create` followed by any sequence of
`update_score` calls satisfies the four record invariants, and both
`create` and `update_score` preserve them. -/
theorem C4_player_record_invariants :
    (∀ (name : Str) (s : Int), PlayerInv (Player.create name s)) ∧
    (∀ (p : Player) (ns : Int), PlayerInv p → PlayerInv (p.update_score ns)) ∧
    (∀ (name : Str) (s : Int) (updates : List Int),
      PlayerInv (updates.foldl Player.update_score (Player.create name s))) :=
  ⟨create_playerInv, update_playerInv,
   fun name s updates => foldl_update_playerInv updates _ (create_playerInv name s)⟩

theorem C4_player_record_invariants_witness :
    PlayerInv ((Player.create ['B'] 2).update_score 9) :=
  C4_player_record_invariants.2.1 (Player.create ['B'] 2) 9 (by decide)

/-- C6: `validate_score` succeeds exactly when the raw input parses as an
integer in `[0, 10000]`; it is a pure function of the raw input and
touches no player or leaderboard state. -/
theorem C6_validate_score_spec (raw : Str) :
    ScoreValidator.validate_score raw = true ↔
      ∃ v, pyInt raw = some v ∧ 0 ≤ v ∧ v ≤ 10000 := by
  unfold ScoreValidator.validate_score
  cases h : pyInt raw with
  | none => simp
  | some v =>
    simp only [Option.some_inj]
    constructor
    · intro hv
      refine ⟨v, rfl, ?_, ?_⟩ <;> by_contra hcon <;> simp_all
    · rintro ⟨w, rfl, hw0, hw1⟩
      rw [if_neg (by omega), if_neg (by omega)]

/-- C7: `validate_name` succeeds exactly when the trimmed string is
non-empty and the raw length is at most 20 characters. -/
theorem C7_validate_name_spec (name : Str) :
    ScoreValidator.validate_name name = true ↔
      (pyStrip name).length ≠ 0 ∧ name.length ≤ 20 := by
  unfold ScoreValidator.validate_name
  split_ifs with h1 h2
  · rcases h1 with h1 | h1
    · subst h1
      simp [pyStrip]
    · simp [h1]
  · simp only [Bool.false_eq_true, false_iff]
    intro hcon
    omega
  · simp only [true_iff]
    push_neg at h1
    exact ⟨h1.2, by omega⟩

/-! ## Claims about loading: streak reset -/

theorem parseFields_streak {name : Str} {o1 o2 o3 : Option Int}
    {oh : Option (List Int)} {p : Player}
    (h : parseFields name o1 o2 o3 oh = some p) : p.current_streak = 0 := by
  unfold parseFields at h
  split at h
  · rw [Option.some_inj] at h
    subst h
    rfl
  · exact absurd h (by simp)

theorem parseLine_streak {l : Str} {p : Player} (h : parseLine l = some p) :
    p.current_streak = 0 := by
  unfold parseLine at h
  split at h
  · exact parseFields_streak h
  · exact absurd h (by simp)

theorem upsert_mem {ps : List Player} {p r : Player} (h : r ∈ upsert ps p) :
    r = p ∨ r ∈ ps := by
  unfold upsert at h
  split at h
  · rcases List.mem_map.mp h with ⟨q, hq, hr⟩
    by_cases hname : q.name = p.name
    · rw [if_pos hname] at hr
      exact Or.inl hr.symm
    · rw [if_neg hname] at hr
      exact Or.inr (hr ▸ hq)
  · rcases List.mem_append.mp h with h | h
    · exact Or.inr h
    · exact Or.inl (List.mem_singleton.mp h)

theorem loadFold_streak :
    ∀ (lines : List Str) (ps : List Player),
      (∀ q ∈ ps, q.current_streak = 0) →
      ∀ p ∈ (loadFold ps lines).1, p.current_streak = 0 := by
  intro lines
  induction lines with
  | nil => intro ps h p hp; exact h p hp
  | cons line rest ih =>
    intro ps h p hp
    rw [loadFold] at hp
    split at hp
    · exact ih ps h p hp
    · split at hp
      · exact h p hp
      · rename_i q hq
        refine ih (upsert ps q) ?_ p hp
        intro r hr
        rcases upsert_mem hr with hr | hr
        · rw [hr]
          exact parseLine_streak hq
        · exact h r hr

/-- C10: every player reconstructed by `load_leaderboard` has
`current_streak = 0`: the streak is not part of the file format and
`Player(name, score)` initializes it to 0, which the load never
overwrites. -/
theorem C10_load_resets_streak (lines : List Str) (p : Player)
    (h : p ∈ (load_leaderboard lines).1.players) : p.current_streak = 0 := by
  rw [load_leaderboard] at h
  exact loadFold_streak (lines.drop 2) [] (by simp) p h

theorem C10_load_resets_streak_witness :
    { name := ['A'], score := 7, games_played := 3, best_score := 9,
      score_history := [9, 2, 7], current_streak := 0 : Player } ∈
      (load_leaderboard
        ["h1".toList, "h2".toList, "A|7|3|9|9,2,7".toList]).1.players ∧
    ({ name := ['A'], score := 7, games_played := 3, best_score := 9,
       score_history := [9, 2, 7], current_streak := 0 : Player }).current_streak = 0 :=
  ⟨by decide,
   C10_load_resets_streak ["h1".toList, "h2".toList, "A|7|3|9|9,2,7".toList] _ (by decide)⟩

/-! ## Claims about validation in `add_score` -/

/-- C5: `add_score` runs both validators and on any failure returns
`False` leaving the player collection unchanged; the spec's boundary
cases behave as stated. -/
theorem C5_add_score_validation :
    (∀ (lb : Leaderboard) (name raw : Str),
      (ScoreValidator.validate_name name = false ∨
        ScoreValidator.validate_score raw = false) →
      lb.add_score name raw = (false, lb)) ∧
    (∀ lb : Leaderboard, lb.add_score "Alice".toList "10001".toList = (false, lb)) ∧
    (∀ lb : Leaderboard, lb.add_score [] "100".toList = (false, lb)) ∧
    (∀ lb : Leaderboard,
      lb.add_score (List.replicate 21 'A') "100".toList = (false, lb)) ∧
    (∀ lb : Leaderboard, (lb.add_score "Alice".toList "10000".toList).1 = true) := by
  have main : ∀ (lb : Leaderboard) (name raw : Str),
      (ScoreValidator.validate_name name = false ∨
        ScoreValidator.validate_score raw = false) →
      lb.add_score name raw = (false, lb) := by
    intro lb name raw h
    unfold Leaderboard.add_score
    rcases h with h | h
    · rw [if_pos (by simp [h])]
    · by_cases hn : ScoreValidator.validate_name name = true
      · rw [if_neg (by simp [hn]), if_pos (by simp [h])]
      · rw [if_pos hn]
  refine ⟨main,
    fun lb => main lb _ _ (Or.inr (by decide)),
    fun lb => main lb _ _ (Or.inl (by decide)),
    fun lb => main lb _ _ (Or.inl (by decide)),
    ?_⟩
  intro lb
  unfold Leaderboard.add_score
  rw [if_neg (by decide), if_neg (by decide),
    show pyInt "10000".toList = some 10000 from by decide]
  split
  · rename_i heq
    exact Option.noConfusion heq
  · split <;> rfl

theorem C5_add_score_validation_witness :
    Leaderboard.add_score ⟨[]⟩ ['B'] ['x'] = (false, ⟨[]⟩) ∧
    ScoreValidator.validate_score ['x'] = false :=
  ⟨C5_add_score_validation.1 ⟨[]⟩ ['B'] ['x'] (Or.inr (by decide)), by decide⟩

/-! ## Claims about ranking -/

instance : IsTotal Player scoreGE :=
  ⟨fun a b => le_total b.score a.score⟩

instance : IsTrans Player scoreGE :=
  ⟨fun _ _ _ hab hbc => le_trans hbc hab⟩

theorem filter_orderedInsert_score (x : Player) (l : List Player) (s : Int) :
    (List.orderedInsert scoreGE x l).filter (fun p => decide (p.score = s)) =
      if x.score = s then
        x :: l.filter (fun p => decide (p.score = s))
      else l.filter (fun p => decide (p.score = s)) := by
  induction l with
  | nil =>
    by_cases h : x.score = s
    · rw [if_pos h]
      simp [List.orderedInsert, List.filter_cons, h]
    · rw [if_neg h]
      simp [List.orderedInsert, List.filter_cons, h]
  | cons b l ih =>
    rw [List.orderedInsert]
    by_cases hr : scoreGE x b
    · rw [if_pos hr, List.filter_cons, List.filter_cons]
      by_cases h : x.score = s
      · rw [if_pos h]
        simp [List.filter_cons, h]
      · rw [if_neg h]
        simp [List.filter_cons, h]
    · rw [if_neg hr, List.filter_cons, ih]
      have hlt : x.score < b.score := lt_of_not_le hr
      by_cases h : x.score = s
      · have hb : ¬ (b.score = s) := by omega
        rw [if_pos h, List.filter_cons]
        simp [h, hb]
      · rw [if_neg h, List.filter_cons]
        simp [if_neg h]

theorem filter_sortByScoreDesc (l : List Player) (s : Int) :
    (sortByScoreDesc l).filter (fun p => decide (p.score = s)) =
      l.filter (fun p => decide (p.score = s)) := by
  unfold sortByScoreDesc
  induction l with
  | nil => rfl
  | cons x l ih =>
    rw [List.insertionSort, filter_orderedInsert_score, List.filter_cons]
    by_cases h : x.score = s
    · rw [if_pos h, ih]
      simp [h]
    · rw [if_neg h, ih]
      simp [h]

theorem sorted_sortByScoreDesc (l : List Player) :
    (sortByScoreDesc l).Pairwise scoreGE :=
  List.sorted_insertionSort scoreGE l

theorem perm_sortByScoreDesc (l : List Player) :
    (sortByScoreDesc l).Perm l :=
  List.perm_insertionSort scoreGE l

/-- C8: `get_top_players n` returns at most `n` records, pairwise sorted
by `current_score` descending, forming a prefix of the full stable
descending sort of the collection (itself a permutation of the
collection); on equal scores the sort keeps the iteration order of the
collection, expressed by filtering each score class. -/
theorem C8_top_players_spec (lb : Leaderboard) (n : Nat) :
    (lb.get_top_players n).length ≤ n ∧
    (lb.get_top_players n).Pairwise scoreGE ∧
    (∃ rest, lb.get_top_players n ++ rest = sortByScoreDesc lb.players) ∧
    (sortByScoreDesc lb.players).Perm lb.players ∧
    (∀ s : Int,
      (sortByScoreDesc lb.players).filter (fun p => decide (p.score = s)) =
        lb.players.filter (fun p => decide (p.score = s))) := by
  refine ⟨?_, ?_, ?_, perm_sortByScoreDesc lb.players, fun s => filter_sortByScoreDesc lb.players s⟩
  · rw [Leaderboard.get_top_players, List.length_take]
    exact min_le_left _ _
  · exact List.Pairwise.sublist (List.take_sublist n _) (sorted_sortByScoreDesc lb.players)
  · exact ⟨(sortByScoreDesc lb.players).drop n, List.take_append_drop n _⟩

/-! ## Claims about saving -/

/-- C9: `save_leaderboard` produces as complete file content a two-line
header followed by one pipe-delimited line per player of exactly the top
10 by current score (so at most 10 data lines); the file is opened with
mode `w` so this content replaces whatever the file held, and
`self.players` is untouched, so players ranked beyond 10 stay in memory. -/
theorem C9_save_format (lb : Leaderboard) (h1 h2 : Str) :
    (lb.save_leaderboard h1 h2).1 =
      h1 :: h2 :: (lb.get_top_players 10).map serializePlayer ∧
    ((lb.save_leaderboard h1 h2).1.drop 2).length ≤ 10 ∧
    (∀ line ∈ (lb.save_leaderboard h1 h2).1.drop 2,
      ∃ p ∈ lb.get_top_players 10, line = serializePlayer p) ∧
    (lb.save_leaderboard h1 h2).2 = lb := by
  refine ⟨rfl, ?_, ?_, rfl⟩
  · show ((lb.get_top_players 10).map serializePlayer).length ≤ 10
    rw [List.length_map, Leaderboard.get_top_players, List.length_take]
    exact min_le_left _ _
  · intro line hline
    rcases List.mem_map.mp hline with ⟨p, hp, hline⟩
    exact ⟨p, hp, hline.symm⟩

/-! ## Claims about load failure -/

/-- C1 as stated is false: a parse failure aborts the rest of the load,
but players parsed from earlier lines stay in `self.players`; here a file
with one good line and then one bad line leaves one player loaded. -/
theorem C1_partial_load_counterexample :
    (load_leaderboard
      ["h1".toList, "h2".toList, "A|1|1|1|1".toList, "B|x|x|x|x".toList]).2 = false ∧
    (load_leaderboard
      ["h1".toList, "h2".toList, "A|1|1|1|1".toList, "B|x|x|x|x".toList]).1.players =
      [{ name := ['A'], score := 1, games_played := 1, best_score := 1,
         score_history := [1], current_streak := 0 }] := by
  constructor
  · decide
  · decide

/-- C1 amended: on the first failing data line the load stops (no later
line is processed) and reports failure, while every player accumulated
from the earlier lines is kept. -/
theorem C1_load_abort_keeps_prefix (pre : List Str) (line : Str)
    (more : List Str) (ps ps' : List Player)
    (hpre : loadFold ps pre = (ps', true))
    (hline : pyStrip line ≠ []) (hparse : parseLine line = none) :
    loadFold ps (pre ++ line :: more) = (ps', false) := by
  induction pre generalizing ps with
  | nil =>
    rw [loadFold] at hpre
    rw [Prod.mk.injEq] at hpre
    rw [List.nil_append, loadFold, if_neg hline, hparse, hpre.1]
  | cons l0 pre ih =>
    rw [List.cons_append, loadFold]
    rw [loadFold] at hpre
    by_cases hblank : pyStrip l0 = []
    · rw [if_pos hblank] at hpre ⊢
      exact ih ps hpre
    · rw [if_neg hblank] at hpre ⊢
      cases hp : parseLine l0 with
      | none =>
        rw [hp] at hpre
        exact absurd hpre (by simp)
      | some q =>
        rw [hp] at hpre
        exact ih _ hpre


theorem C1_load_abort_keeps_prefix_witness :
    loadFold [] ["A|1|1|1|1".toList] =
      ([{ name := ['A'], score := 1, games_played := 1, best_score := 1,
          score_history := [1], current_streak := 0 }], true) ∧
    pyStrip "B|x".toList ≠ [] ∧
    parseLine "B|x".toList = none ∧
    loadFold [] (["A|1|1|1|1".toList] ++ "B|x".toList :: ["C|2|1|2|2".toList]) =
      ([{ name := ['A'], score := 1, games_played := 1, best_score := 1,
          score_history := [1], current_streak := 0 }], false) :=
  ⟨by decide, by decide, by decide,
   C1_load_abort_keeps_prefix ["A|1|1|1|1".toList] "B|x".toList
     ["C|2|1|2|2".toList] [] _ (by decide) (by decide) (by decide)⟩

/-! ## Round-trip of the serialized line format -/

theorem isDigit_ne_pipe {c : Char} (h : c.isDigit = true) : c ≠ '|' := by
  intro hc; subst hc; simp at h

theorem isDigit_ne_comma {c : Char} (h : c.isDigit = true) : c ≠ ',' := by
  intro hc; subst hc; simp at h

theorem intToStr_not_pipe (i : Int) : '|' ∉ intToStr i := by
  intro h
  rcases intToStr_isDigit_or_neg i '|' h with hd | hd
  · exact absurd hd (by decide)
  · exact absurd hd (by decide)

theorem intToStr_not_comma (i : Int) : ',' ∉ intToStr i := by
  intro h
  rcases intToStr_isDigit_or_neg i ',' h with hd | hd
  · exact absurd hd (by decide)
  · exact absurd hd (by decide)

theorem intToStr_ne_nil (i : Int) : intToStr i ≠ [] := by
  rw [intToStr]
  split
  · simp
  · exact natToDigitsAux_ne_nil (Nat.succ_pos _)

theorem splitOnSep_of_not_mem {sep : Char} :
    ∀ {l : Str}, sep ∉ l → splitOnSep sep l = [l] := by
  intro l
  induction l with
  | nil => intro _; rfl
  | cons c rest ih =>
    intro h
    have hcne : ¬ (c = sep) := by
      intro hc
      subst hc
      exact h (List.mem_cons_self c rest)
    rw [splitOnSep, if_neg hcne, ih (fun hm => h (List.mem_cons_of_mem c hm))]

theorem splitOnSep_append {sep : Char} :
    ∀ {l1 : Str} (l2 : Str), sep ∉ l1 →
      splitOnSep sep (l1 ++ sep :: l2) = l1 :: splitOnSep sep l2 := by
  intro l1
  induction l1 with
  | nil => intro l2 _; rw [List.nil_append, splitOnSep, if_pos rfl]
  | cons c rest ih =>
    intro l2 h
    have hcne : ¬ (c = sep) := by
      intro hc
      subst hc
      exact h (List.mem_cons_self c rest)
    rw [List.cons_append, splitOnSep, if_neg hcne,
      ih l2 (fun hm => h (List.mem_cons_of_mem c hm))]

theorem joinSep_ne_nil {sep : Char} {ls : List Str}
    (h0 : ls ≠ []) (h1 : ∀ x ∈ ls, x ≠ []) : joinSep sep ls ≠ [] := by
  match ls with
  | [] => exact absurd rfl h0
  | [x] => exact h1 x (List.mem_singleton_self x)
  | x :: y :: rest =>
    rw [joinSep]
    simp

theorem mem_joinSep {sep c : Char} :
    ∀ {ls : List Str}, c ∈ joinSep sep ls → c = sep ∨ ∃ x ∈ ls, c ∈ x := by
  intro ls
  induction ls with
  | nil => intro h; exact absurd h (by simp [joinSep])
  | cons x ls ih =>
    cases ls with
    | nil => intro h; exact Or.inr ⟨x, List.mem_singleton_self x, h⟩
    | cons y rest =>
      intro h
      rw [joinSep] at h
      rcases List.mem_append.mp h with h | h
      · exact Or.inr ⟨x, List.mem_cons_self _ _, h⟩
      · rcases List.mem_cons.mp h with h | h
        · exact Or.inl h
        · rcases ih h with h | ⟨z, hz, hcz⟩
          · exact Or.inl h
          · exact Or.inr ⟨z, List.mem_cons_of_mem x hz, hcz⟩

theorem splitOnSep_joinSep {sep : Char} :
    ∀ {ls : List Str}, ls ≠ [] → (∀ x ∈ ls, sep ∉ x) →
      splitOnSep sep (joinSep sep ls) = ls := by
  intro ls
  induction ls with
  | nil => intro h0 _; exact absurd rfl h0
  | cons x ls ih =>
    cases ls with
    | nil =>
      intro _ hmem
      show splitOnSep sep x = [x]
      exact splitOnSep_of_not_mem (hmem x (List.mem_singleton_self x))
    | cons y rest =>
      intro _ hmem
      rw [joinSep, splitOnSep_append _ (hmem x (List.mem_cons_self _ _)),
        ih (by simp) (fun z hz => hmem z (List.mem_cons_of_mem x hz))]

theorem getLast?_append_right {a b : Str} (h : b ≠ []) :
    (a ++ b).getLast? = b.getLast? := by
  rw [List.getLast?_append]
  cases hb : b.getLast? with
  | none => exact absurd (List.getLast?_eq_none_iff.mp hb) h
  | some c => rfl

theorem getLast?_field (sep : Char) (a b : Str) (hb : b ≠ []) :
    (a ++ sep :: b).getLast? = b.getLast? := by
  rw [List.append_cons, getLast?_append_right hb]

theorem dropWhile_cons_false {p : Char → Bool} {c : Char} {rest : Str}
    (h : (c :: rest).dropWhile p = c :: rest) : p c = false := by
  by_contra hcon
  rw [Bool.not_eq_false] at hcon
  rw [List.dropWhile_cons, if_pos hcon] at h
  have hle : (rest.dropWhile p).length ≤ rest.length :=
    (List.dropWhile_sublist p).length_le
  have := congrArg List.length h
  simp only [List.length_cons] at this
  omega

theorem mapM_pyInt_intToStr : ∀ l : List Int, (l.map intToStr).mapM pyInt = some l := by
  intro l
  induction l with
  | nil => rfl
  | cons i rest ih =>
    rw [List.map_cons, List.mapM_cons, pyInt_intToStr, ih]
    rfl

theorem csv_ne_nil {hist : List Int} (hhist : hist ≠ []) :
    joinSep ',' (hist.map intToStr) ≠ [] :=
  joinSep_ne_nil (by simpa using hhist)
    (fun x hx => by
      rcases List.mem_map.mp hx with ⟨i, _, hi⟩
      exact hi ▸ intToStr_ne_nil i)

theorem csv_not_pySpace {hist : List Int} {c : Char}
    (hc : c ∈ joinSep ',' (hist.map intToStr)) : isPySpace c = false := by
  rcases mem_joinSep hc with h | ⟨x, hx, hcx⟩
  · subst h; decide
  · rcases List.mem_map.mp hx with ⟨i, _, hi⟩
    subst hi
    rcases intToStr_isDigit_or_neg i c hcx with h | h
    · exact isDigit_not_pySpace h
    · subst h; decide

theorem csv_not_pipe {hist : List Int} : '|' ∉ joinSep ',' (hist.map intToStr) := by
  intro hc
  rcases mem_joinSep hc with h | ⟨x, hx, hcx⟩
  · exact absurd h (by decide)
  · rcases List.mem_map.mp hx with ⟨i, _, hi⟩
    subst hi
    exact intToStr_not_pipe i hcx

theorem serializePlayer_getLast?_eq (p : Player) :
    p.score_history ≠ [] →
      (serializePlayer p).getLast? =
        (joinSep ',' (p.score_history.map intToStr)).getLast? := by
  intro hhist
  rw [serializePlayer, getLast?_field _ _ _ (by simp), getLast?_field _ _ _ (by simp),
    getLast?_field _ _ _ (by simp), getLast?_field _ _ _ (csv_ne_nil hhist)]

theorem pyStrip_serializePlayer (p : Player)
    (hlead : p.name.dropWhile isPySpace = p.name)
    (hhist : p.score_history ≠ []) :
    pyStrip (serializePlayer p) = serializePlayer p := by
  apply pyStrip_eq_self
  · intro c hc
    cases hname : p.name with
    | nil =>
      rw [serializePlayer, hname, List.nil_append, List.head?_cons,
        Option.some_inj] at hc
      subst hc
      decide
    | cons c0 name0 =>
      rw [serializePlayer, hname, List.cons_append, List.head?_cons,
        Option.some_inj] at hc
      subst hc
      rw [hname] at hlead
      exact dropWhile_cons_false hlead
  · intro c hc
    rw [serializePlayer_getLast?_eq p hhist] at hc
    exact csv_not_pySpace (getLast?_mem_self hc)

theorem splitOnSep_serializePlayer (p : Player) (hpipe : '|' ∉ p.name) :
    splitOnSep '|' (serializePlayer p) =
      [p.name, intToStr p.score, intToStr p.games_played, intToStr p.best_score,
        joinSep ',' (p.score_history.map intToStr)] := by
  rw [serializePlayer, splitOnSep_append _ hpipe,
    splitOnSep_append _ (intToStr_not_pipe _),
    splitOnSep_append _ (intToStr_not_pipe _),
    splitOnSep_append _ (intToStr_not_pipe _),
    splitOnSep_of_not_mem csv_not_pipe]

/-- The serialize/parse round trip for one data line: under the stated
conditions on the player, `parseLine` recovers every stored field and
resets the streak. -/
theorem parseLine_serializePlayer (p : Player)
    (hpipe : '|' ∉ p.name)
    (hlead : p.name.dropWhile isPySpace = p.name)
    (hhist : p.score_history ≠ []) :
    parseLine (serializePlayer p) = some { p with current_streak := 0 } := by
  unfold parseLine
  rw [pyStrip_serializePlayer p hlead hhist, splitOnSep_serializePlayer p hpipe]
  show parseFields p.name (pyInt (intToStr p.score)) (pyInt (intToStr p.games_played))
    (pyInt (intToStr p.best_score))
    ((splitOnSep ',' (joinSep ',' (p.score_history.map intToStr))).mapM pyInt) =
    some { p with current_streak := 0 }
  rw [pyInt_intToStr, pyInt_intToStr, pyInt_intToStr,
    splitOnSep_joinSep (by simpa using hhist)
      (fun z hz => by
        rcases List.mem_map.mp hz with ⟨i, _, hi⟩
        exact hi ▸ intToStr_not_comma i),
    mapM_pyInt_intToStr]
  rfl

theorem loadFold_append_of_success :
    ∀ (pre : List Str) (ps ps' : List Player) (rest : List Str),
      loadFold ps pre = (ps', true) →
      loadFold ps (pre ++ rest) = loadFold ps' rest := by
  intro pre
  induction pre with
  | nil =>
    intro ps ps' rest h
    rw [loadFold, Prod.mk.injEq] at h
    rw [List.nil_append, h.1]
  | cons l0 pre ih =>
    intro ps ps' rest h
    rw [loadFold] at h
    rw [List.cons_append, loadFold]
    by_cases hblank : pyStrip l0 = []
    · rw [if_pos hblank] at h ⊢
      exact ih _ _ _ h
    · rw [if_neg hblank] at h ⊢
      cases hp : parseLine l0 with
      | none =>
        rw [hp] at h
        exact absurd h (by simp)
      | some q =>
        rw [hp] at h
        exact ih _ _ _ h

theorem loadFold_success :
    ∀ (ls : List Str) (ps : List Player),
      (∀ l ∈ ls, pyStrip l ≠ [] ∧ parseLine l ≠ none) →
      ∃ ps', loadFold ps ls = (ps', true) := by
  intro ls
  induction ls with
  | nil => intro ps _; exact ⟨ps, rfl⟩
  | cons l0 ls ih =>
    intro ps h
    obtain ⟨hb, hp⟩ := h l0 (List.mem_cons_self _ _)
    rw [loadFold, if_neg hb]
    cases hq : parseLine l0 with
    | none => exact absurd hq hp
    | some q => exact ih (upsert ps q) (fun l hl => h l (List.mem_cons_of_mem _ hl))

theorem mem_upsert_self (ps : List Player) (p : Player) : p ∈ upsert ps p := by
  unfold upsert
  split
  · rename_i hany
    rcases List.any_eq_true.mp hany with ⟨q, hq, hqname⟩
    refine List.mem_map.mpr ⟨q, hq, ?_⟩
    rw [if_pos (of_decide_eq_true hqname)]
  · exact List.mem_append_right _ (List.mem_singleton_self p)

theorem mem_upsert_of_ne {ps : List Player} {q p : Player}
    (hq : q ∈ ps) (hne : p.name ≠ q.name) : q ∈ upsert ps p := by
  unfold upsert
  split
  · exact List.mem_map.mpr ⟨q, hq, by rw [if_neg (fun h => hne h.symm)]⟩
  · exact List.mem_append_left _ hq

theorem mem_loadFold_of_mem :
    ∀ (ls : List Str) (ps : List Player) (q : Player), q ∈ ps →
      (∀ l ∈ ls, ∀ r, parseLine l = some r → r.name ≠ q.name) →
      q ∈ (loadFold ps ls).1 := by
  intro ls
  induction ls with
  | nil => intro ps q hq _; exact hq
  | cons l0 ls ih =>
    intro ps q hq h
    rw [loadFold]
    by_cases hblank : pyStrip l0 = []
    · rw [if_pos hblank]
      exact ih ps q hq (fun l hl => h l (List.mem_cons_of_mem _ hl))
    · rw [if_neg hblank]
      cases hp : parseLine l0 with
      | none => exact hq
      | some r =>
        exact ih (upsert ps r) q
          (mem_upsert_of_ne hq (h l0 (List.mem_cons_self _ _) r hp))
          (fun l hl => h l (List.mem_cons_of_mem _ hl))

/-- C2 as stated is false: a player whose (validator-accepted) name
contains the field separator `|` is present in the saved top-10 file but
its line cannot be parsed back, so nothing is reproduced. -/
theorem C2_roundtrip_counterexample :
    ({ name := "A|B".toList, score := 5, games_played := 1, best_score := 5,
       score_history := [5], current_streak := 0 : Player }) ∈
      Leaderboard.get_top_players
        ⟨[{ name := "A|B".toList, score := 5, games_played := 1, best_score := 5,
            score_history := [5], current_streak := 0 }]⟩ 10 ∧
    ScoreValidator.validate_name "A|B".toList = true ∧
    (load_leaderboard
      ((Leaderboard.save_leaderboard
        ⟨[{ name := "A|B".toList, score := 5, games_played := 1, best_score := 5,
            score_history := [5], current_streak := 0 }]⟩
        "h1".toList "h2".toList).1)).1.players = [] := by
  refine ⟨by decide, by decide, by decide⟩

/-- C2 amended: save followed by load on a fresh Leaderboard reproduces
`current_score`, `best_score`, `games_played` and `score_history` for
every player of the saved top-10 file, provided the players' names are
pairwise distinct and every saved player has a name free of `|`, of
newline and carriage-return characters, and of leading whitespace, and a
non-empty score history.  The no-newline conditions are imposed even
though the line-list file model cannot observe them: in the real file a
name containing `'\n'` (or, with universal newlines, `'\r'`) splits the
player's record across two lines of `readlines()`, and the load aborts
on the fragment, so the theorem must not cover such names. -/
theorem C2_roundtrip_amended (lb : Leaderboard) (h1 h2 : Str)
    (hnodup : (lb.players.map Player.name).Nodup)
    (hgood : ∀ q ∈ lb.get_top_players 10,
      '|' ∉ q.name ∧ q.name.dropWhile isPySpace = q.name ∧
        q.score_history ≠ [] ∧ '\n' ∉ q.name ∧ '\x0d' ∉ q.name) :
    ∀ p ∈ lb.get_top_players 10,
      ∃ q ∈ (load_leaderboard (lb.save_leaderboard h1 h2).1).1.players,
        q.name = p.name ∧ q.score = p.score ∧ q.best_score = p.best_score ∧
        q.games_played = p.games_played ∧ q.score_history = p.score_history := by
  intro p hp
  have htop : ((lb.get_top_players 10).map Player.name).Nodup := by
    have hsortnodup : ((sortByScoreDesc lb.players).map Player.name).Nodup :=
      (((perm_sortByScoreDesc lb.players).map Player.name).symm).nodup hnodup
    exact List.Nodup.sublist
      (List.Sublist.map Player.name (List.take_sublist 10 _)) hsortnodup
  obtain ⟨pre, post, hsplit⟩ := List.append_of_mem hp
  have hparse : ∀ t ∈ lb.get_top_players 10,
      parseLine (serializePlayer t) = some { t with current_streak := 0 } :=
    fun t ht =>
      parseLine_serializePlayer t (hgood t ht).1 (hgood t ht).2.1 (hgood t ht).2.2.1
  have hline_ne : ∀ t ∈ lb.get_top_players 10,
      pyStrip (serializePlayer t) ≠ [] := by
    intro t ht
    rw [pyStrip_serializePlayer t (hgood t ht).2.1 (hgood t ht).2.2.1, serializePlayer]
    simp
  have hplayers : (load_leaderboard (lb.save_leaderboard h1 h2).1).1.players =
      (loadFold [] ((lb.get_top_players 10).map serializePlayer)).1 := rfl
  have hnamepost : p.name ∉ post.map Player.name := by
    have hax := htop
    rw [hsplit, List.map_append, List.map_cons] at hax
    exact (List.nodup_cons.mp (List.Nodup.of_append_right hax)).1
  obtain ⟨ps', hps'⟩ := loadFold_success (pre.map serializePlayer) []
    (by
      intro l hl
      rcases List.mem_map.mp hl with ⟨t, ht, hts⟩
      have htt : t ∈ lb.get_top_players 10 := by
        rw [hsplit]
        exact List.mem_append_left _ ht
      subst hts
      exact ⟨hline_ne t htt, fun hcon => Option.noConfusion ((hparse t htt).symm.trans hcon)⟩)
  refine ⟨{ p with current_streak := 0 }, ?_, rfl, rfl, rfl, rfl, rfl⟩
  rw [hplayers, hsplit, List.map_append, List.map_cons,
    loadFold_append_of_success _ _ _ _ hps', loadFold,
    if_neg (hline_ne p hp), hparse p hp]
  exact mem_loadFold_of_mem (post.map serializePlayer) _ _
    (mem_upsert_self ps' _)
    (by
      intro l hl r hr
      rcases List.mem_map.mp hl with ⟨t, ht, hts⟩
      have htt : t ∈ lb.get_top_players 10 := by
        rw [hsplit]
        exact List.mem_append_right _ (List.mem_cons_of_mem p ht)
      subst hts
      have : { t with current_streak := 0 } = r :=
        Option.some_inj.mp ((hparse t htt).symm.trans hr)
      rw [← this]
      show t.name ≠ Player.name { p with current_streak := 0 }
      intro hcon
      exact hnamepost (hcon ▸ List.mem_map.mpr ⟨t, ht, rfl⟩))

theorem C2_roundtrip_amended_witness :
    ∃ q ∈ (load_leaderboard
        ((⟨[{ name := "Alice".toList, score := 100, games_played := 1,
              best_score := 100, score_history := [100], current_streak := 0 },
            { name := "Bob".toList, score := 50, games_played := 2,
              best_score := 80, score_history := [80, 50], current_streak := 3 }]⟩ :
          Leaderboard).save_leaderboard "t".toList "=".toList).1).1.players,
      q.name = "Bob".toList ∧ q.score = 50 ∧ q.best_score = 80 ∧
      q.games_played = 2 ∧ q.score_history = [80, 50] :=
  C2_roundtrip_amended
    ⟨[{ name := "Alice".toList, score := 100, games_played := 1,
        best_score := 100, score_history := [100], current_streak := 0 },
      { name := "Bob".toList, score := 50, games_played := 2,
        best_score := 80, score_history := [80, 50], current_streak := 3 }]⟩
    "t".toList "=".toList (by decide) (by decide)
    { name := "Bob".toList, score := 50, games_played := 2,
      best_score := 80, score_history := [80, 50], current_streak := 3 }
    (by decide)
